import Mathlib

/-!
Verification of the merge-dedupe-exclude pipeline of khulnasoft-lab/blackhole.

The repository's `src/updateBlackholeFile.py` keeps `get_defaults` and `main`
verbatim; the helper and processing functions (source reading, exclusion,
merging, formatting) are elided from the file ("All helper and processing
functions remain as in your current script") and are therefore modelled here
from the design document, as marked on each definition.  `get_defaults`,
the argument parser of `main`, the extensions computation of `main` and the
post-processing dispatch of `main` are translated directly from the source.
-/

namespace Blackhole

/-- Settings dictionary returned by `get_defaults` (src/updateBlackholeFile.py
lines 49-79).  Filesystem-path fields (`datapath`, `extensionspath`,
`blacklistfile`, `whitelistfile`, `readmetemplate`, `readmedatafilename`),
which are computed by the `path_join_robust` helper that is elided from the
source file, and the readme bookkeeping fields are not needed by any claim
and are omitted; every remaining key of the dictionary is a field. -/
structure Settings where
  numberofrules : Nat
  freshen : Bool
  replace : Bool
  backup : Bool
  skipstaticblackhole : Bool
  keepdomaincomments : Bool
  extensions : List String
  nounifiedblackhole : Bool
  compress : Bool
  minimise : Bool
  outputsubfolder : String
  hostfilename : String
  targetip : String
  sourcedatafilename : String
  readmefilename : String
  exclusionpattern : String
  exclusions : List String
  commonexclusions : List String
deriving DecidableEq

/-- `get_defaults` (src/updateBlackholeFile.py lines 49-79): the default
value of every settings key. -/
def get_defaults : Settings where
  numberofrules := 0
  freshen := true
  replace := false
  backup := false
  skipstaticblackhole := false
  keepdomaincomments := true
  extensions := []
  nounifiedblackhole := false
  compress := false
  minimise := false
  outputsubfolder := ""
  hostfilename := "blackhole"
  targetip := "0.0.0.0"
  sourcedatafilename := "update.json"
  readmefilename := "readme.md"
  exclusionpattern := "([a-zA-Z\\d-]+\\.){0,}"
  exclusions := []
  commonexclusions := ["hulu.com"]

/-- `argparse` option `action="store_false"` semantics (used for
`--keepdomaincomments` on src/updateBlackholeFile.py line 91): the parsed
value is the declared default when the flag is absent on the command line and
`False` when the flag is present. -/
def store_false (present : Bool) (dflt : Bool) : Bool :=
  if present then false else dflt

/-- `argparse` option `action="store_true"` semantics (default `False`):
the parsed value is `True` exactly when the flag is present. -/
def store_true (present : Bool) : Bool :=
  present

/-- The options dictionary produced by `parser.parse_args()` in `main`
(src/updateBlackholeFile.py lines 86-101), keyed by the `argparse`
destinations.  Field defaults are the parser's declared defaults, i.e. the
values parsed when no option is supplied on the command line.  The path
defaults of `--whitelist`/`--blacklist` go through the elided
`path_join_robust` helper and are kept abstract as strings. -/
structure Options where
  auto : Bool := false
  backup : Bool := false
  extensions : List String := []
  nounifiedblackhole : Bool := false
  ip : String := "0.0.0.0"
  keepdomaincomments : Bool := true
  noupdate : Bool := false
  skipstaticblackhole : Bool := false
  nogendata : Bool := false
  output : String := ""
  replace : Bool := false
  flushdnscache : Bool := false
  compress : Bool := false
  minimise : Bool := false
  whitelist : String := "whitelist"
  blacklist : String := "blacklist"
deriving DecidableEq

/-- `settings = get_defaults(); settings.update(options)` in `main`
(src/updateBlackholeFile.py lines 103-109), restricted to the keys the two
dictionaries share: `backup`, `replace`, `skipstaticblackhole`,
`keepdomaincomments`, `compress`, `minimise`, `extensions` are overwritten by
the parsed options, and `freshen` is overwritten by `not options["noupdate"]`
(line 106).  The option keys `auto`, `ip`, `noupdate`, `nogendata`, `output`,
`whitelist`, `blacklist`, `flushdnscache` and `outputpath` do not collide
with any defaults key (in particular `targetip` is never overwritten by
`--ip`), so `dict.update` only adds them and no settings field changes. -/
def applyOptions (s : Settings) (o : Options) : Settings :=
  { s with
    backup := o.backup
    replace := o.replace
    skipstaticblackhole := o.skipstaticblackhole
    keepdomaincomments := o.keepdomaincomments
    compress := o.compress
    minimise := o.minimise
    extensions := o.extensions
    freshen := !o.noupdate }

/-- The three possible fates of the formatted artifact. -/
inductive PostProcessor
  | passThrough
  | compressing
  | minimizing
deriving DecidableEq

/-- Post-processing dispatch of `main` (src/updateBlackholeFile.py lines
148-159): `if settings["compress"]: ... compress_file(...)` applies the
compressor, `elif settings["minimise"]: ... minimise_file(...)` applies the
minimiser, and the `else` branch applies neither; the value is the list of
post-processors applied to the artifact in one run. -/
def postProcessorsRun (compress minimise : Bool) : List PostProcessor :=
  if compress then [PostProcessor.compressing]
  else if minimise then [PostProcessor.minimizing]
  else [PostProcessor.passThrough]

/-- Character class `[a-zA-Z\d-]` of the default `exclusionpattern` string of
`get_defaults` (src/updateBlackholeFile.py line 73), with `\d` read as the
ASCII digit class as the design document does; `Char.isAlpha`/`Char.isDigit`
are exactly the ASCII ranges `A`-`Z`, `a`-`z`, `0`-`9`. -/
def labelChar (c : Char) : Bool :=
  c.isAlpha || c.isDigit || c == '-'

/-- Character class `[a-zA-Z0-9-]` as the design document spells it, written
independently with explicit range comparisons. -/
def specLabelChar (c : Char) : Bool :=
  ('a' ≤ c && c ≤ 'z') || ('A' ≤ c && c ≤ 'Z') || ('0' ≤ c && c ≤ '9') || c == '-'

/-- The language of the regex fragment `(C+\.){0,}` over a character class
`cls`: zero or more blocks, each a non-empty run of class characters followed
by a literal dot.  With `cls := labelChar` this is the language of the
default `exclusionpattern` `([a-zA-Z\d-]+\.){0,}`. -/
inductive PatternLang (cls : Char → Bool) : List Char → Prop
  | nil : PatternLang cls []
  | block (label rest : List Char) (hne : label ≠ [])
      (hcls : ∀ c ∈ label, cls c = true) (h : PatternLang cls rest) :
      PatternLang cls (label ++ '.' :: rest)

/-- Modelled from the spec: the compiled matcher for `exclusionpattern`
prefixed onto a literal blacklist entry (the `exclude_domain` /
`matches_exclusions` helpers are elided from src/updateBlackholeFile.py).
A deterministic two-state run over the candidate string: in state `false`
the remaining string may equal the literal entry or start a fresh
`[class]+\.` block; in state `true` we are inside a block's label, which a
literal dot closes. -/
def fuzzyRun (cls : Char → Bool) (entry : List Char) : List Char → Bool → Bool
  | [], inLabel => !inLabel && ([] == entry)
  | c :: t, false => ((c :: t) == entry) || (cls c && fuzzyRun cls entry t true)
  | c :: t, true =>
      if c = '.' then fuzzyRun cls entry t false
      else cls c && fuzzyRun cls entry t true

/-- Modelled from the spec: a domain matches the fuzzy exclusion for a
literal entry when it is the entry itself or the entry preceded by a string
of the prefixed `exclusionpattern` language (i.e. it is the entry or a
subdomain of it). -/
def fuzzyMatch (cls : Char → Bool) (entry s : List Char) : Bool :=
  fuzzyRun cls entry s false

theorem labelChar_eq_specLabelChar : ∀ c : Char, labelChar c = specLabelChar c := by
  intro c
  show (c.isAlpha || c.isDigit || c == '-') =
    (decide ('a' ≤ c) && decide (c ≤ 'z') || (decide ('A' ≤ c) && decide (c ≤ 'Z')) ||
      (decide ('0' ≤ c) && decide (c ≤ '9')) || c == '-')
  have h1 : decide ('a' ≤ c) = decide ((97 : UInt32) ≤ c.val) := rfl
  have h2 : decide (c ≤ 'z') = decide (c.val ≤ (122 : UInt32)) := rfl
  have h3 : decide ('A' ≤ c) = decide ((65 : UInt32) ≤ c.val) := rfl
  have h4 : decide (c ≤ 'Z') = decide (c.val ≤ (90 : UInt32)) := rfl
  have h5 : decide ('0' ≤ c) = decide ((48 : UInt32) ≤ c.val) := rfl
  have h6 : decide (c ≤ '9') = decide (c.val ≤ (57 : UInt32)) := rfl
  simp only [labelChar, Char.isAlpha, Char.isLower, Char.isUpper, Char.isDigit, ge_iff_le,
    h1, h2, h3, h4, h5, h6]
  cases hA : decide ((97 : UInt32) ≤ c.val) <;>
    cases hB : decide (c.val ≤ (122 : UInt32)) <;>
    cases hC : decide ((65 : UInt32) ≤ c.val) <;>
    cases hD : decide (c.val ≤ (90 : UInt32)) <;>
    cases hE : decide ((48 : UInt32) ≤ c.val) <;>
    cases hF : decide (c.val ≤ (57 : UInt32)) <;> rfl

theorem patternLang_congr {cls₁ cls₂ : Char → Bool} (hc : ∀ c, cls₁ c = cls₂ c)
    {l : List Char} (h : PatternLang cls₁ l) : PatternLang cls₂ l := by
  induction h with
  | nil => exact PatternLang.nil
  | block label rest hne hcls _ ih =>
      exact PatternLang.block label rest hne (fun c hm => (hc c) ▸ hcls c hm) ih

/-- The two-state run recognises exactly the decompositions
`pattern-language ++ entry` (state `false`) resp.
`label-rest ++ "." ++ pattern-language ++ entry` (state `true`), provided the
class does not contain the dot. -/
theorem fuzzyRun_characterization (cls : Char → Bool) (hdot : cls '.' = false)
    (entry : List Char) :
    ∀ s : List Char,
      (fuzzyRun cls entry s false = true ↔ ∃ p, PatternLang cls p ∧ s = p ++ entry) ∧
      (fuzzyRun cls entry s true = true ↔
        ∃ l p, (∀ c ∈ l, cls c = true) ∧ PatternLang cls p ∧
          s = l ++ '.' :: (p ++ entry)) := by
  intro s
  induction s with
  | nil =>
      constructor
      · simp only [fuzzyRun, Bool.not_false, Bool.true_and, beq_iff_eq]
        constructor
        · intro h
          exact ⟨[], PatternLang.nil, h⟩
        · rintro ⟨p, hp, heq⟩
          cases hp with
          | nil => exact heq
          | block label rest hne hcls h =>
              exact absurd heq.symm (by simp [List.append_eq_nil])
      · constructor
        · intro h
          simp [fuzzyRun] at h
        · rintro ⟨l, p, _, _, heq⟩
          exact absurd heq.symm (by simp)
  | cons c t ih =>
      constructor
      · simp only [fuzzyRun, Bool.or_eq_true, Bool.and_eq_true, beq_iff_eq]
        constructor
        · rintro (h | ⟨hcl, hrun⟩)
          · exact ⟨[], PatternLang.nil, h⟩
          · obtain ⟨l, p, hall, hp, heq⟩ := ih.2.mp hrun
            refine ⟨(c :: l) ++ '.' :: p,
              PatternLang.block (c :: l) p (List.cons_ne_nil c l) ?_ hp, ?_⟩
            · intro x hx
              rcases List.mem_cons.mp hx with hx | hx
              · exact hx ▸ hcl
              · exact hall x hx
            · simp [heq, List.append_assoc]
        · rintro ⟨p, hp, heq⟩
          cases hp with
          | nil => exact Or.inl heq
          | block label rest hne hcls h =>
              match label, hne with
              | a :: l', _ =>
                  simp only [List.cons_append, List.cons.injEq] at heq
                  obtain ⟨hca, ht⟩ := heq
                  refine Or.inr ⟨hca ▸ hcls a (List.mem_cons_self a l'), ?_⟩
                  refine ih.2.mpr ⟨l', rest, fun x hx => hcls x (List.mem_cons_of_mem a hx), h, ?_⟩
                  simpa [List.append_assoc] using ht
      · show (if c = '.' then fuzzyRun cls entry t false
              else cls c && fuzzyRun cls entry t true) = true ↔ _
        by_cases hc : c = '.'
        · subst hc
          simp only [if_pos rfl]
          constructor
          · intro h
            obtain ⟨p, hp, heq⟩ := ih.1.mp h
            exact ⟨[], p, by simp, hp, by simp [heq]⟩
          · rintro ⟨l, p, hall, hp, heq⟩
            cases l with
            | nil =>
                simp only [List.nil_append, List.cons.injEq] at heq
                exact ih.1.mpr ⟨p, hp, heq.2⟩
            | cons a l' =>
                simp only [List.cons_append, List.cons.injEq] at heq
                have : cls '.' = true := heq.1 ▸ hall a (List.mem_cons_self a l')
                rw [hdot] at this
                exact absurd this (by simp)
        · simp only [if_neg hc, Bool.and_eq_true]
          constructor
          · rintro ⟨hcl, hrun⟩
            obtain ⟨l, p, hall, hp, heq⟩ := ih.2.mp hrun
            refine ⟨c :: l, p, ?_, hp, by simp [heq]⟩
            intro x hx
            rcases List.mem_cons.mp hx with hx | hx
            · exact hx ▸ hcl
            · exact hall x hx
          · rintro ⟨l, p, hall, hp, heq⟩
            cases l with
            | nil =>
                simp only [List.nil_append, List.cons.injEq] at heq
                exact absurd heq.1 hc
            | cons a l' =>
                simp only [List.cons_append, List.cons.injEq] at heq
                refine ⟨heq.1 ▸ hall a (List.mem_cons_self a l'), ?_⟩
                exact ih.2.mpr ⟨l', p, fun x hx => hall x (List.mem_cons_of_mem a hx), hp, heq.2⟩

/-- A domain matches the fuzzy matcher for a literal entry exactly when it is
the entry preceded by a (possibly empty) word of the exclusion-pattern
language. -/
theorem fuzzyMatch_iff (cls : Char → Bool) (hdot : cls '.' = false)
    (entry s : List Char) :
    fuzzyMatch cls entry s = true ↔ ∃ p, PatternLang cls p ∧ s = p ++ entry :=
  (fuzzyRun_characterization cls hdot entry s).1

/-- Modelled from the spec: the `ExclusionSet` of the Exclusion Engine (the
`display_exclusion_options` / `exclude_domain` / `matches_exclusions` helpers
are elided from src/updateBlackholeFile.py).  `literalDomains` holds the
literal blacklist entries together with the built-in common exclusions;
`regexPatterns` the compiled matchers of blacklist lines that are already
regular expressions; `cls` the compiled character class of the configured
`exclusionpattern` fragment. -/
structure ExclusionSet where
  whitelist : List String
  literalDomains : List String
  regexPatterns : List (List Char → Bool)
  cls : Char → Bool

/-- Modelled from the spec: `build(blacklistPath, whitelistPath,
commonExclusions, exclusionPattern)`; common exclusions are treated exactly
like literal blacklist entries, and the default pattern class is compiled
in. -/
def ExclusionSet.build (literals : List String) (regexes : List (List Char → Bool))
    (whitelist commonexclusions : List String) : ExclusionSet where
  whitelist := whitelist
  literalDomains := literals ++ commonexclusions
  regexPatterns := regexes
  cls := labelChar

/-- Modelled from the spec: `isExcluded(domain)`.  The whitelist is checked
first and short-circuits; otherwise a domain is excluded when it matches the
fuzzy pattern of some literal entry (it equals the entry or is a subdomain of
it) or matches some compiled regex pattern. -/
def isExcluded (es : ExclusionSet) (domain : String) : Bool :=
  if es.whitelist.contains domain then false
  else
    es.literalDomains.any (fun entry => fuzzyMatch es.cls entry.data domain.data) ||
      es.regexPatterns.any (fun p => p domain.data)

/-- Modelled from the spec: a normalized record produced by the Source
Reader: the lower-cased, dot-stripped domain, the optional provenance
comment, and the index of the contributing source. -/
structure NormalizedEntry where
  domain : String
  comment : Option String
  sourceOrder : Nat
deriving DecidableEq

/-- Modelled from the spec: one step of the Merge-Dedupe Engine for one
normalized record: skip when `isExcluded`, skip when the domain is already
present in the table (first-seen-wins, silently), otherwise append. -/
def mergeStep (es : ExclusionSet) (table : List NormalizedEntry)
    (e : NormalizedEntry) : List NormalizedEntry :=
  if isExcluded es e.domain then table
  else if table.any (fun t => t.domain == e.domain) then table
  else table ++ [e]

/-- Modelled from the spec: `merge(sources, exclusions, keepComments)`: fold
the normalized records, in caller-supplied order, into the MergedTable. -/
def merge (entries : List NormalizedEntry) (es : ExclusionSet) : List NormalizedEntry :=
  entries.foldl (mergeStep es) []

theorem mem_domains_mergeStep {d : String} (es : ExclusionSet)
    (table : List NormalizedEntry) (e : NormalizedEntry)
    (h : d ∈ table.map (fun t => t.domain)) :
    d ∈ (mergeStep es table e).map (fun t => t.domain) := by
  unfold mergeStep
  split
  · exact h
  · split
    · exact h
    · rw [List.map_append]
      exact List.mem_append_left _ h

theorem self_mem_domains_mergeStep (es : ExclusionSet)
    (table : List NormalizedEntry) (e : NormalizedEntry)
    (hex : isExcluded es e.domain = false) :
    e.domain ∈ (mergeStep es table e).map (fun t => t.domain) := by
  unfold mergeStep
  rw [hex]
  simp only [Bool.false_eq_true, if_false]
  split
  · next hany =>
      obtain ⟨t, hmem, hbeq⟩ := List.any_eq_true.mp hany
      exact (beq_iff_eq.mp hbeq) ▸ List.mem_map_of_mem (fun t => t.domain) hmem
  · rw [List.map_append]
    exact List.mem_append_right _ (by simp)

theorem mem_domains_foldl {d : String} (es : ExclusionSet) :
    ∀ (entries : List NormalizedEntry) (table : List NormalizedEntry),
      d ∈ table.map (fun t => t.domain) →
      d ∈ (entries.foldl (mergeStep es) table).map (fun t => t.domain) := by
  intro entries
  induction entries with
  | nil => intro table h; exact h
  | cons e rest ih =>
      intro table h
      exact ih (mergeStep es table e) (mem_domains_mergeStep es table e h)

theorem mem_domains_merge_of_contributed {d : String} (es : ExclusionSet)
    (hex : isExcluded es d = false) :
    ∀ (entries : List NormalizedEntry) (table : List NormalizedEntry),
      (∃ e ∈ entries, e.domain = d) →
      d ∈ (entries.foldl (mergeStep es) table).map (fun t => t.domain) := by
  intro entries
  induction entries with
  | nil =>
      rintro table ⟨e, he, _⟩
      exact absurd he (List.not_mem_nil e)
  | cons e rest ih =>
      rintro table ⟨e', he', hd⟩
      rcases List.mem_cons.mp he' with he' | he'
      · subst he'
        have : e'.domain ∈ (mergeStep es table e').map (fun t => t.domain) :=
          self_mem_domains_mergeStep es table e' (hd ▸ hex)
        exact hd ▸ mem_domains_foldl es rest _ (hd ▸ this)
      · exact ih (mergeStep es table e) ⟨e', he', hd⟩

theorem nodup_domains_mergeStep (es : ExclusionSet)
    (table : List NormalizedEntry) (e : NormalizedEntry)
    (h : (table.map (fun t => t.domain)).Nodup) :
    ((mergeStep es table e).map (fun t => t.domain)).Nodup := by
  unfold mergeStep
  split
  · exact h
  · split
    · exact h
    · next hany =>
        rw [List.map_append]
        refine List.nodup_append.mpr ⟨h, by simp, ?_⟩
        intro a ha hmem
        obtain ⟨t, htm, htd⟩ := List.mem_map.mp ha
        have : a = e.domain := by simpa using hmem
        have := List.any_eq_false.mp (Bool.eq_false_iff.mpr hany) t htm
        exact this (beq_iff_eq.mpr (htd.trans ‹a = e.domain›))

/-- C3: the merged output contains no domain twice: insertion happens only
when the domain is not already present (first-seen-wins), later duplicates
are silently dropped, and the no-two-entries-share-a-domain invariant holds
after every insertion, hence of the whole table. -/
theorem merge_no_duplicates (entries : List NormalizedEntry) (es : ExclusionSet) :
    ((merge entries es).map (fun e => e.domain)).Nodup := by
  unfold merge
  have general : ∀ (l : List NormalizedEntry) (table : List NormalizedEntry),
      (table.map (fun t => t.domain)).Nodup →
      ((l.foldl (mergeStep es) table).map (fun t => t.domain)).Nodup := by
    intro l
    induction l with
    | nil => intro table h; exact h
    | cons e rest ih =>
        intro table h
        exact ih (mergeStep es table e) (nodup_domains_mergeStep es table e h)
  exact general entries [] (by simp)

theorem isExcluded_eq_false_of_whitelisted {d : String} (es : ExclusionSet)
    (hw : d ∈ es.whitelist) : isExcluded es d = false := by
  have hc : es.whitelist.contains d = true := by simpa using hw
  simp only [isExcluded, hc, if_true]

/-- C2: a domain present in the whitelist is never excluded — whitelist takes
precedence over the blacklist, the common-exclusion list and every regex
pattern — and such a domain appears in the merged output whenever any source
contributes it. -/
theorem whitelist_precedence (literals : List String)
    (regexes : List (List Char → Bool)) (wl common : List String) (d : String)
    (entries : List NormalizedEntry) (hw : d ∈ wl)
    (hc : ∃ e ∈ entries, e.domain = d) :
    isExcluded (ExclusionSet.build literals regexes wl common) d = false ∧
    d ∈ (merge entries (ExclusionSet.build literals regexes wl common)).map
        (fun e => e.domain) := by
  have hex : isExcluded (ExclusionSet.build literals regexes wl common) d = false :=
    isExcluded_eq_false_of_whitelisted _ hw
  exact ⟨hex, mem_domains_merge_of_contributed _ hex entries [] hc⟩

/-- Witness for C2 at a concrete input: `"hulu.com"` is on the whitelist, on
the blacklist and on the common-exclusion list, and one source contributes
it; it is not excluded and it appears in the merged output. -/
theorem whitelist_precedence_witness :
    isExcluded (ExclusionSet.build ["hulu.com"] [] ["hulu.com"] ["hulu.com"])
        "hulu.com" = false ∧
    "hulu.com" ∈ (merge [⟨"hulu.com", none, 0⟩]
        (ExclusionSet.build ["hulu.com"] [] ["hulu.com"] ["hulu.com"])).map
        (fun e => e.domain) :=
  whitelist_precedence ["hulu.com"] [] ["hulu.com"] ["hulu.com"] "hulu.com"
    [⟨"hulu.com", none, 0⟩] (by decide)
    ⟨⟨"hulu.com", none, 0⟩, by decide, rfl⟩

/-- C1: with the default exclusion pattern prefixed onto the literal entry,
a blacklist containing `example.com` excludes the domain itself and its
subdomain `ads.example.com` (provided the whitelist does not claim them),
and the canonical single-entry blacklist does not exclude
`notexample.com`. -/
theorem subdomain_exclusion (literals : List String)
    (regexes : List (List Char → Bool)) (wl common : List String)
    (hb : "example.com" ∈ literals)
    (hw1 : "example.com" ∉ wl) (hw2 : "ads.example.com" ∉ wl) :
    isExcluded (ExclusionSet.build literals regexes wl common) "example.com" = true ∧
    isExcluded (ExclusionSet.build literals regexes wl common) "ads.example.com" = true ∧
    isExcluded (ExclusionSet.build ["example.com"] [] [] ["hulu.com"])
      "notexample.com" = false := by
  refine ⟨?_, ?_, by decide⟩
  · have hc : wl.contains "example.com" = false := by simpa using hw1
    simp only [isExcluded, ExclusionSet.build, hc, Bool.false_eq_true, if_false,
      Bool.or_eq_true]
    exact Or.inl (List.any_eq_true.mpr
      ⟨"example.com", List.mem_append_left _ hb, by decide⟩)
  · have hc : wl.contains "ads.example.com" = false := by simpa using hw2
    simp only [isExcluded, ExclusionSet.build, hc, Bool.false_eq_true, if_false,
      Bool.or_eq_true]
    exact Or.inl (List.any_eq_true.mpr
      ⟨"example.com", List.mem_append_left _ hb, by decide⟩)

/-- Witness for C1 at the concrete single-entry blacklist and empty
whitelist. -/
theorem subdomain_exclusion_witness :
    isExcluded (ExclusionSet.build ["example.com"] [] [] ["hulu.com"])
        "example.com" = true ∧
    isExcluded (ExclusionSet.build ["example.com"] [] [] ["hulu.com"])
        "ads.example.com" = true ∧
    isExcluded (ExclusionSet.build ["example.com"] [] [] ["hulu.com"])
        "notexample.com" = false :=
  subdomain_exclusion ["example.com"] [] [] ["hulu.com"] (by decide) (by decide)
    (by decide)

/-- C6: the default `exclusionpattern` configuration scalar of `get_defaults`
is the fragment `([a-zA-Z\d-]+\.){0,}`, whose denotation (with `\d` the ASCII
digit class) is exactly the language of the fragment `([a-zA-Z0-9-]+\.){0,}`
written with explicit ranges, and it is the fragment prefixed onto literal
blacklist entries: the fuzzy matcher for an entry accepts exactly the strings
that are a word of the pattern language followed by the entry. -/
theorem default_exclusionpattern (entry s : List Char) :
    get_defaults.exclusionpattern = "([a-zA-Z\\d-]+\\.){0,}" ∧
    (∀ l : List Char, PatternLang labelChar l ↔ PatternLang specLabelChar l) ∧
    (fuzzyMatch labelChar entry s = true ↔
      ∃ p, PatternLang labelChar p ∧ s = p ++ entry) := by
  refine ⟨rfl, ?_, fuzzyMatch_iff labelChar (by decide) entry s⟩
  intro l
  exact ⟨patternLang_congr labelChar_eq_specLabelChar,
    patternLang_congr (fun c => (labelChar_eq_specLabelChar c).symm)⟩

/-- Modelled from the spec: split a raw source line at its first `#`: the
body before it and the optional trailing comment text after it. -/
def splitAtHash : List Char → List Char × Option (List Char)
  | [] => ([], none)
  | c :: t =>
      if c = '#' then ([], some t)
      else
        let r := splitAtHash t
        (c :: r.1, r.2)

/-- Modelled from the spec: the whitespace-separated words of a line body
(`cur` accumulates the current word, reversed). -/
def wordsAux (cur : List Char) : List Char → List (List Char)
  | [] => if cur = [] then [] else [cur.reverse]
  | c :: t =>
      if c.isWhitespace then
        if cur = [] then wordsAux [] t else cur.reverse :: wordsAux [] t
      else wordsAux (c :: cur) t

/-- The fate of one raw source line in the Source Reader. -/
inductive LineResult
  | skip
  | malformed
  | entry (domain : String) (comment : Option String)
deriving DecidableEq

/-- Modelled from the spec: strip one trailing dot from a domain token. -/
def stripTrailingDot (l : List Char) : List Char :=
  if l.getLast? = some '.' then l.dropLast else l

/-- Modelled from the spec: normalize a domain token: lower-case and strip a
trailing dot; a token left empty is rejected as malformed. -/
def normalizeToken (tok : List Char) (comment : Option (List Char)) : LineResult :=
  let d := stripTrailingDot (tok.map Char.toLower)
  if d = [] then LineResult.malformed
  else LineResult.entry (String.mk d) (comment.map String.mk)

/-- Modelled from the spec: per-line normalization of the Source Reader:
blank and comment-only lines are skipped; a `<domain>` or `<ip> <domain>`
body (with optional trailing `#` comment) yields a normalized entry; a body
with internal whitespace (three or more words) is malformed and skipped. -/
def parseLine (line : String) : LineResult :=
  match wordsAux [] (splitAtHash line.data).1, (splitAtHash line.data).2 with
  | [], _ => LineResult.skip
  | [d], comment => normalizeToken d comment
  | [_, d], comment => normalizeToken d comment
  | _, _ => LineResult.malformed

/-- Modelled from the spec: a source file: its path and its raw lines,
`none` when the file cannot be opened. -/
structure SourceFile where
  path : String
  content : Option (List String)
deriving DecidableEq

/-- Warning counters surfaced at end of run. -/
structure ReadStats where
  malformedLines : Nat
  skippedSources : Nat
deriving DecidableEq

/-- Modelled from the spec: read one source: the normalized records in file
order together with the count of malformed lines, which are skipped and
counted, never fatal. -/
def readSourceLines (order : Nat) : List String → List NormalizedEntry × Nat
  | [] => ([], 0)
  | line :: rest =>
      let r := readSourceLines order rest
      match parseLine line with
      | LineResult.skip => r
      | LineResult.malformed => (r.1, r.2 + 1)
      | LineResult.entry d c => (⟨d, c, order⟩ :: r.1, r.2)

/-- Modelled from the spec: read every source in caller-supplied order; a
source that cannot be opened is counted and the run continues with the
remaining sources (degraded, not aborted). -/
def readSourcesFrom (idx : Nat) : List SourceFile → List NormalizedEntry × ReadStats
  | [] => ([], ⟨0, 0⟩)
  | s :: rest =>
      let r := readSourcesFrom (idx + 1) rest
      match s.content with
      | none => (r.1, ⟨r.2.malformedLines, r.2.skippedSources + 1⟩)
      | some lines =>
          let sr := readSourceLines idx lines
          (sr.1 ++ r.1, ⟨sr.2 + r.2.malformedLines, r.2.skippedSources⟩)

def readAllSources (sources : List SourceFile) : List NormalizedEntry × ReadStats :=
  readSourcesFrom 0 sources

/-- Specification-side counter: the number of sources that cannot be
opened. -/
def countUnreadable (sources : List SourceFile) : Nat :=
  (sources.filter (fun s => s.content.isNone)).length

/-- Specification-side counter: the number of malformed lines of one
source. -/
def malformedIn (lines : List String) : Nat :=
  (lines.filter (fun l => parseLine l == LineResult.malformed)).length

/-- Specification-side counter: the total number of malformed lines over the
readable sources. -/
def totalMalformed (sources : List SourceFile) : Nat :=
  (sources.map (fun s => match s.content with
    | none => 0
    | some ls => malformedIn ls)).sum

/-- The structural-error taxonomy: the only errors that abort a run. -/
inductive StructuralError
  | invalidConfiguration
  | exclusionPatternInvalid
  | outputWriteFailure
deriving DecidableEq

/-- Modelled from the spec: a blacklist line is either a literal domain or a
line already recognized as a regular expression; whether a regex line
compiles is decided by the external regex engine and carried as a flag
together with its compiled matcher. -/
inductive BlacklistEntry
  | literal (domain : String)
  | pattern (valid : Bool) (matcher : List Char → Bool)

def BlacklistEntry.compiles : BlacklistEntry → Bool
  | BlacklistEntry.literal _ => true
  | BlacklistEntry.pattern v _ => v

/-- Modelled from the spec: build the ExclusionSet from the blacklist,
whitelist and common exclusions; a malformed regex in the blacklist aborts
the run with a structural error, since exclusion correctness cannot be
guaranteed. -/
def compileExclusions (blacklist : List BlacklistEntry)
    (wl common : List String) : Except StructuralError ExclusionSet :=
  if blacklist.all (fun e => e.compiles) then
    Except.ok (ExclusionSet.build
      (blacklist.filterMap (fun e => match e with
        | BlacklistEntry.literal d => some d
        | BlacklistEntry.pattern _ _ => none))
      (blacklist.filterMap (fun e => match e with
        | BlacklistEntry.literal _ => none
        | BlacklistEntry.pattern _ m => some m))
      wl common)
  else Except.error StructuralError.exclusionPatternInvalid

/-- Modelled from the spec: one emitted host line `<targetIp> <domain>`, the
provenance comment appended when `keepComments` is set and one exists. -/
def formatEntry (targetip : String) (keepComments : Bool)
    (e : NormalizedEntry) : String :=
  match e.comment with
  | some c =>
      if keepComments then targetip ++ " " ++ e.domain ++ " # " ++ c
      else targetip ++ " " ++ e.domain
  | none => targetip ++ " " ++ e.domain

/-- Modelled from the spec: static loopback boilerplate prepended unless
`skipStatic` is set. -/
def staticBlackholeLines : List String :=
  ["127.0.0.1 localhost", "::1 localhost"]

/-- Modelled from the spec: the Formatter: the table rendered in insertion
order, after the static boilerplate. -/
def formatOutput (targetip : String) (keepComments skipStatic : Bool)
    (table : List NormalizedEntry) : List String :=
  (if skipStatic then [] else staticBlackholeLines) ++
    table.map (formatEntry targetip keepComments)

/-- The primary artifact of a run with its entry count and warning
counters. -/
structure RunOutput where
  lines : List String
  entryCount : Nat
  stats : ReadStats

/-- Modelled from the spec: one full run of the pipeline: compiling the
blacklist can abort structurally, an unwritable destination aborts
structurally, and everything else — unreadable sources, malformed lines —
is absorbed into the warning counters of the output. -/
def runPipeline (cfg : Settings) (blacklist : List BlacklistEntry)
    (wl common : List String) (sources : List SourceFile)
    (destinationWritable : Bool) : Except StructuralError RunOutput :=
  match compileExclusions blacklist wl common with
  | Except.error e => Except.error e
  | Except.ok es =>
      if destinationWritable then
        let r := readAllSources sources
        let table := merge r.1 es
        Except.ok ⟨formatOutput cfg.targetip cfg.keepdomaincomments
          cfg.skipstaticblackhole table, table.length, r.2⟩
      else Except.error StructuralError.outputWriteFailure

theorem readSourceLines_malformed_count (order : Nat) :
    ∀ lines : List String, (readSourceLines order lines).2 = malformedIn lines := by
  intro lines
  induction lines with
  | nil => rfl
  | cons line rest ih =>
      show (match parseLine line with
        | LineResult.skip => readSourceLines order rest
        | LineResult.malformed =>
            ((readSourceLines order rest).1, (readSourceLines order rest).2 + 1)
        | LineResult.entry d c =>
            (⟨d, c, order⟩ :: (readSourceLines order rest).1,
              (readSourceLines order rest).2)).2 = _
      cases hp : parseLine line with
      | skip => simpa [malformedIn, List.filter_cons, hp] using ih
      | malformed => simpa [malformedIn, List.filter_cons, hp] using ih
      | entry d c => simpa [malformedIn, List.filter_cons, hp] using ih

theorem readSourcesFrom_stats :
    ∀ (sources : List SourceFile) (idx : Nat),
      (readSourcesFrom idx sources).2.skippedSources = countUnreadable sources ∧
      (readSourcesFrom idx sources).2.malformedLines = totalMalformed sources := by
  intro sources
  induction sources with
  | nil => intro idx; exact ⟨rfl, rfl⟩
  | cons s rest ih =>
      intro idx
      cases hs : s.content with
      | none =>
          constructor
          · show (match s.content with
              | none => _
              | some lines => _ : List NormalizedEntry × ReadStats).2.skippedSources = _
            rw [hs]
            simp only [countUnreadable, List.filter_cons, hs, Option.isNone_none,
              if_pos rfl, List.length_cons]
            exact congrArg (· + 1) ((ih (idx + 1)).1.trans rfl)
          · show (match s.content with
              | none => _
              | some lines => _ : List NormalizedEntry × ReadStats).2.malformedLines = _
            rw [hs]
            simp only [totalMalformed, List.map_cons, hs, List.sum_cons, Nat.zero_add]
            exact (ih (idx + 1)).2
      | some lines =>
          constructor
          · show (match s.content with
              | none => _
              | some lines => _ : List NormalizedEntry × ReadStats).2.skippedSources = _
            rw [hs]
            simp only [countUnreadable, List.filter_cons, hs, Option.isNone_some,
              Bool.false_eq_true, if_false]
            exact (ih (idx + 1)).1
          · show (match s.content with
              | none => _
              | some lines => _ : List NormalizedEntry × ReadStats).2.malformedLines = _
            rw [hs]
            simp only [totalMalformed, List.map_cons, hs, List.sum_cons]
            rw [readSourceLines_malformed_count idx lines]
            exact congrArg (malformedIn lines + ·) (ih (idx + 1)).2

/-- C8: per-line and per-source input errors never abort a run: malformed
lines are skipped and counted, unreadable sources are counted while the run
continues, and — with the exclusion sources compiled and the destination
writable — the pipeline always returns an output; an abort happens exactly
on a structural error (an invalid blacklist regex or an unwritable
destination). -/
theorem per_line_errors_never_abort (cfg : Settings)
    (blacklist : List BlacklistEntry) (wl common : List String)
    (sources : List SourceFile) (writable : Bool) :
    (readAllSources sources).2.skippedSources = countUnreadable sources ∧
    (readAllSources sources).2.malformedLines = totalMalformed sources ∧
    (runPipeline cfg blacklist wl common sources writable).isOk =
      (blacklist.all (fun e => e.compiles) && writable) ∧
    (∀ e, runPipeline cfg blacklist wl common sources writable =
        Except.error e →
      e = StructuralError.exclusionPatternInvalid ∨
        e = StructuralError.outputWriteFailure) := by
  refine ⟨(readSourcesFrom_stats sources 0).1, (readSourcesFrom_stats sources 0).2,
    ?_, ?_⟩
  · unfold runPipeline compileExclusions
    cases hall : blacklist.all (fun e => e.compiles) with
    | false => simp [Except.isOk, Except.toBool]
    | true => cases writable <;> simp [Except.isOk, Except.toBool]
  · intro e he
    unfold runPipeline compileExclusions at he
    cases hall : blacklist.all (fun e => e.compiles) with
    | false =>
        rw [hall] at he
        simp only [Bool.false_eq_true, if_false] at he
        injection he with h
        exact Or.inl h.symm
    | true =>
        rw [hall] at he
        simp only [if_true] at he
        cases writable with
        | true => simp at he
        | false =>
            simp only [Bool.false_eq_true, if_false] at he
            injection he with h
            exact Or.inr h.symm

/-- Modelled from the spec: the primary artifact of the
merge-dedupe-format pipeline as one byte stream. -/
def pipelineBytes (cfg : Settings) (sources : List SourceFile)
    (es : ExclusionSet) : String :=
  String.intercalate "\n"
    (formatOutput cfg.targetip cfg.keepdomaincomments cfg.skipstaticblackhole
      (merge (readAllSources sources).1 es))

/-- Reference dedup, written from the spec's words: keep the first
occurrence of each element, in input order. -/
def firstSeen : List String → List String
  | [] => []
  | d :: rest => d :: firstSeen (rest.filter (fun x => !(x == d)))
termination_by l => l.length
decreasing_by simp_wf; exact Nat.lt_succ_of_le (List.length_filter_le _ _)

theorem firstSeen_nil : firstSeen [] = [] := by
  rw [firstSeen.eq_def]

theorem firstSeen_cons (d : String) (rest : List String) :
    firstSeen (d :: rest) = d :: firstSeen (rest.filter (fun x => !(x == d))) := by
  rw [firstSeen.eq_def]

/-- The merge fold, on domain strings alone. -/
def foldDomains (table : List String) (l : List String) : List String :=
  l.foldl (fun t d => if t.any (fun x => x == d) then t else t ++ [d]) table

theorem any_beq_map_domain (table : List NormalizedEntry) (d : String) :
    (table.map (fun t => t.domain)).any (fun x => x == d) =
      table.any (fun t => t.domain == d) := by
  induction table with
  | nil => rfl
  | cons e rest ih => simp only [List.map_cons, List.any_cons, ih]

theorem merge_domains_foldDomains (es : ExclusionSet) :
    ∀ (entries : List NormalizedEntry) (table : List NormalizedEntry),
      (entries.foldl (mergeStep es) table).map (fun t => t.domain) =
        foldDomains (table.map (fun t => t.domain))
          ((entries.filter (fun e => !(isExcluded es e.domain))).map
            (fun t => t.domain)) := by
  intro entries
  induction entries with
  | nil => intro table; rfl
  | cons e rest ih =>
      intro table
      show ((rest.foldl (mergeStep es) (mergeStep es table e)).map
        (fun t => t.domain)) = _
      rw [ih (mergeStep es table e)]
      cases hex : isExcluded es e.domain with
      | true =>
          have hm : mergeStep es table e = table := by
            unfold mergeStep; rw [hex]; simp
          rw [hm]
          simp only [List.filter_cons, hex, Bool.not_true, Bool.false_eq_true,
            if_false]
      | false =>
          simp only [List.filter_cons, hex, Bool.not_false, if_pos rfl,
            List.map_cons]
          show _ = (([e.domain] ++ (rest.filter fun e =>
            !isExcluded es e.domain).map fun t => t.domain).foldl _ _)
          rw [List.foldl_append]
          congr 1
          show (mergeStep es table e).map (fun t => t.domain) =
            (if (table.map fun t => t.domain).any (fun x => x == e.domain)
              then table.map fun t => t.domain
              else (table.map fun t => t.domain) ++ [e.domain])
          unfold mergeStep
          rw [hex, any_beq_map_domain]
          simp only [Bool.false_eq_true, if_false]
          split
          · rfl
          · rw [List.map_append]; rfl

theorem foldDomains_firstSeen :
    ∀ (l : List String) (table : List String),
      foldDomains table l =
        table ++ firstSeen (l.filter (fun d => !(table.any (fun x => x == d)))) := by
  intro l
  induction l with
  | nil => intro table; simp [foldDomains, firstSeen_nil]
  | cons d rest ih =>
      intro table
      show foldDomains (if table.any (fun x => x == d) then table
        else table ++ [d]) rest = _
      cases hin : table.any (fun x => x == d) with
      | true =>
          rw [if_pos rfl, ih table]
          have hfc : List.filter (fun x => !table.any fun y => y == x) (d :: rest) =
              List.filter (fun x => !table.any fun y => y == x) rest := by
            simp [List.filter_cons, hin]
          rw [hfc]
      | false =>
          rw [if_neg (by simp [hin]), ih (table ++ [d])]
          have hfc : List.filter (fun x => !table.any fun y => y == x) (d :: rest) =
              d :: List.filter (fun x => !table.any fun y => y == x) rest := by
            simp [List.filter_cons, hin]
          rw [hfc, firstSeen_cons, List.filter_filter, List.append_assoc,
            List.singleton_append]
          congr 2
          congr 1
          apply List.filter_congr
          intro x _
          simp only [List.any_append, List.any_cons, List.any_nil,
            Bool.or_false, Bool.not_or]
          have hbeq : (d == x) = (x == d) := by
            by_cases h : d = x
            · simp [h]
            · simp [beq_eq_false_iff_ne, h, Ne.symm h]
          rw [hbeq, Bool.and_comm]

/-- The merged table's domain sequence is exactly the first-occurrence
dedup, in input order, of the non-excluded contributed domains: the merge
relies on no unordered iteration. -/
theorem merge_domains_firstSeen (entries : List NormalizedEntry)
    (es : ExclusionSet) :
    (merge entries es).map (fun e => e.domain) =
      firstSeen ((entries.filter (fun e => !(isExcluded es e.domain))).map
        (fun t => t.domain)) := by
  unfold merge
  rw [merge_domains_foldDomains es entries [], foldDomains_firstSeen]
  simp only [List.map_nil, List.nil_append, List.any_nil, Bool.not_false,
    List.filter_true]

/-- C4: for fixed inputs — the same ordered sources, the same exclusion set
and the same configuration — two runs of the merge-dedupe-format pipeline
produce byte-identical output; moreover the merged domain sequence is a
function of the ordered input sequence alone (first-occurrence order), so
the pipeline relies on no unordered iteration. -/
theorem pipeline_deterministic (cfg₁ cfg₂ : Settings)
    (sources₁ sources₂ : List SourceFile) (es₁ es₂ : ExclusionSet)
    (hc : cfg₁ = cfg₂) (hs : sources₁ = sources₂) (he : es₁ = es₂) :
    pipelineBytes cfg₁ sources₁ es₁ = pipelineBytes cfg₂ sources₂ es₂ ∧
    (merge (readAllSources sources₁).1 es₁).map (fun e => e.domain) =
      firstSeen (((readAllSources sources₁).1.filter
        (fun e => !(isExcluded es₁ e.domain))).map (fun t => t.domain)) := by
  subst hc hs he
  exact ⟨rfl, merge_domains_firstSeen _ _⟩

/-- Witness for C4 at a concrete input: one source of two lines, the default
configuration, the canonical exclusion set. -/
theorem pipeline_deterministic_witness :
    pipelineBytes (applyOptions get_defaults {})
        [⟨"data/a/blackhole", some ["0.0.0.0 foo.com", "0.0.0.0 foo.com"]⟩]
        (ExclusionSet.build ["example.com"] [] [] ["hulu.com"]) =
      pipelineBytes (applyOptions get_defaults {})
        [⟨"data/a/blackhole", some ["0.0.0.0 foo.com", "0.0.0.0 foo.com"]⟩]
        (ExclusionSet.build ["example.com"] [] [] ["hulu.com"]) ∧
    (merge (readAllSources
        [⟨"data/a/blackhole", some ["0.0.0.0 foo.com", "0.0.0.0 foo.com"]⟩]).1
        (ExclusionSet.build ["example.com"] [] [] ["hulu.com"])).map
        (fun e => e.domain) =
      firstSeen (((readAllSources
        [⟨"data/a/blackhole", some ["0.0.0.0 foo.com", "0.0.0.0 foo.com"]⟩]).1.filter
        (fun e => !(isExcluded (ExclusionSet.build ["example.com"] [] [] ["hulu.com"])
          e.domain))).map (fun t => t.domain)) :=
  pipeline_deterministic _ _ _ _ _ _ rfl rfl rfl

/-- `os.path.basename` for POSIX paths: the component after the last
slash. -/
def basename (p : String) : String :=
  (p.splitOn "/").getLastD ""

/-- Effective extensions computed in `main` (src/updateBlackholeFile.py
lines 115-119):
`sorted(set(options["extensions"]).intersection([os.path.basename(item) for
item in list_dir_no_hidden(extensions_path)]))` — the requested extensions
that have a matching entry in the extensions directory, deduplicated and
sorted ascending; `dirEntries` stands for the listing of the extensions
directory. -/
def effectiveExtensions (requested : List String)
    (dirEntries : List String) : List String :=
  List.insertionSort (fun a b => a ≤ b)
    ((requested.dedup).filter
      (fun r => (dirEntries.map basename).any (fun n => n == r)))

/-- C9: the effective extensions list equals the alphabetically sorted,
deduplicated intersection of the requested extensions with the base names of
the extensions-directory entries; a requested extension with no matching
directory entry is silently dropped (it is simply not a member of the
result, and no error value exists). -/
theorem effective_extensions_sorted_intersection
    (requested dirEntries : List String) :
    (∀ x, x ∈ effectiveExtensions requested dirEntries ↔
      x ∈ requested ∧ x ∈ dirEntries.map basename) ∧
    List.Sorted (fun a b : String => a ≤ b)
      (effectiveExtensions requested dirEntries) ∧
    (effectiveExtensions requested dirEntries).Nodup := by
  have hperm := List.perm_insertionSort (fun a b : String => a ≤ b)
    ((requested.dedup).filter
      (fun r => (dirEntries.map basename).any (fun n => n == r)))
  refine ⟨?_, List.sorted_insertionSort _ _, ?_⟩
  · intro x
    rw [effectiveExtensions, hperm.mem_iff, List.mem_filter, List.mem_dedup]
    constructor
    · rintro ⟨h1, h2⟩
      obtain ⟨n, hn, hbeq⟩ := List.any_eq_true.mp h2
      exact ⟨h1, (beq_iff_eq.mp hbeq) ▸ hn⟩
    · rintro ⟨h1, h2⟩
      exact ⟨h1, List.any_eq_true.mpr ⟨x, h2, beq_self_eq_true x⟩⟩
  · exact hperm.symm.nodup ((List.nodup_dedup requested).filter _)

/-- C7: The default configuration, with no options supplied, has targetip
`"0.0.0.0"`, keepdomaincomments `true`, skipstaticblackhole `false`, and both
compress and minimise `false`. -/
theorem default_configuration_values :
    (applyOptions get_defaults {}).targetip = "0.0.0.0" ∧
    (applyOptions get_defaults {}).keepdomaincomments = true ∧
    (applyOptions get_defaults {}).skipstaticblackhole = false ∧
    (applyOptions get_defaults {}).compress = false ∧
    (applyOptions get_defaults {}).minimise = false := by
  refine ⟨rfl, rfl, rfl, rfl, rfl⟩

/-- C10: Supplying the `--keepdomaincomments` (`-k`) flag
(`action="store_false"`, `default=True`, src/updateBlackholeFile.py line 91)
sets the keepdomaincomments setting to `false`, and omitting the flag leaves
it `true`. -/
theorem keepdomaincomments_flag_disables :
    ∀ present : Bool,
      (applyOptions get_defaults
        { keepdomaincomments := store_false present true }).keepdomaincomments
        = !present := by
  decide

/-- C5: In every run, at most one post-processor is applied to the formatted
output: the compressor and the minimiser are mutually exclusive, and no run
applies both the Compressing and the Minimizing transform. -/
theorem postprocessors_mutually_exclusive :
    ∀ compress minimise : Bool,
      (postProcessorsRun compress minimise).length = 1 ∧
      ¬(PostProcessor.compressing ∈ postProcessorsRun compress minimise ∧
        PostProcessor.minimizing ∈ postProcessorsRun compress minimise) := by
  decide

end Blackhole
